import Mathlib

/-!
Shallow embedding of the `sym233/terminal-game` repository (crates
`adventurers` and `adventurers_quest`) together with proofs about its
movement, oxygen, map-layer, viewport and quest-state-machine logic.

The Rust sources embedded here are:
* `adventurers/src/utils.rs`   — `Position`, `Control`, tile variants;
* `adventurers/src/map.rs`     — `MapLayers` and its construction from a raw map;
* `adventurers/src/player.rs`  — `Player`, `move_to`, `interact_background`;
* `adventurers/src/main.rs`    — `update_player_position`, `update_viewport_position`;
* `adventurers_quest/src/lib.rs` — `QuestStatus`, `QuestProgress`;
* `adventurers/src/quest.rs`   — `StepQuest`, `PickupQuest`, `CompoundQuest`.

Rust `i32` coordinates and the oxygen counter are modelled as `Int` (no
arithmetic in the embedded code comes near the `i32` overflow boundary for the
inputs considered), `usize` step counters as `Nat`, `HashMap`s as association
lists with first-match lookup and `HashSet`s as lists with membership tests.
-/

namespace Adventurers

/-- `Position(pub i32, pub i32)` from `utils.rs` (and the identical tuple
struct in `main.rs`): a 2-D integer coordinate. -/
structure Position where
  x : Int
  y : Int
deriving DecidableEq, Repr

/-- `Position::is_origin` from `main.rs`. -/
def Position.is_origin (p : Position) : Bool :=
  p.x = 0 && p.y = 0

/-- `impl Add for Position` from `utils.rs` / `main.rs`. -/
def Position.add (a b : Position) : Position :=
  ⟨a.x + b.x, a.y + b.y⟩

instance : Add Position := ⟨Position.add⟩

/-- `Control` from `utils.rs` / `main.rs`: the per-tick directional intent. -/
structure Control where
  up : Bool
  down : Bool
  left : Bool
  right : Bool
deriving DecidableEq, Repr

/-- `impl From<&Control> for Position` from `utils.rs` / `main.rs`:
left/right add -1/+1 to x, up/down add -1/+1 to y, starting from (0, 0). -/
def Control.toPosition (c : Control) : Position :=
  let x : Int := (if c.left then (-1 : Int) else 0) + (if c.right then (1 : Int) else 0)
  let y : Int := (if c.up then (-1 : Int) else 0) + (if c.down then (1 : Int) else 0)
  ⟨x, y⟩

/-- `RawMapObject` from `utils.rs`: the closed tag set read from the map file. -/
inductive RawMapObject where
  | Grass
  | Sand
  | Rock
  | Cinderblock
  | Flowerbush
  | Barrier
  | Water
  | Sign (s : String)
  | Object (c : Char)
deriving DecidableEq, Repr

/-- `BackgroundVariant` from `utils.rs`. -/
inductive BackgroundVariant where
  | Grass
  | Sand
  | Rock
  | Cinderblock
  | Flowerbush
  | Barrier
  | Water
deriving DecidableEq, Repr

/-- `ForegroundVariant` from `utils.rs`. -/
inductive ForegroundVariant where
  | Sign (s : String)
  | Object (c : Char)
deriving DecidableEq, Repr

/-- `MapObjectVariant` from `utils.rs`. -/
inductive MapObjectVariant where
  | Foreground (f : ForegroundVariant)
  | Background (b : BackgroundVariant)
deriving DecidableEq, Repr

/-- `BackgroundVariant::is_barrier` from `utils.rs`. -/
def BackgroundVariant.is_barrier (b : BackgroundVariant) : Bool :=
  b = BackgroundVariant.Barrier

/-- `BackgroundVariant::is_water` from `utils.rs`. -/
def BackgroundVariant.is_water (b : BackgroundVariant) : Bool :=
  b = BackgroundVariant.Water

/-- `impl Into<MapObjectVariant> for &RawMapObject` from `utils.rs`:
`Object`/`Sign` become foregrounds, every terrain tag becomes a background. -/
def RawMapObject.classify : RawMapObject → MapObjectVariant
  | .Object c => .Foreground (.Object c)
  | .Sign s => .Foreground (.Sign s)
  | .Barrier => .Background .Barrier
  | .Cinderblock => .Background .Cinderblock
  | .Flowerbush => .Background .Flowerbush
  | .Grass => .Background .Grass
  | .Rock => .Background .Rock
  | .Sand => .Background .Sand
  | .Water => .Background .Water

/-- `RawGameMap = HashMap<Position, RawMapObject>` from `map.rs`, modelled as an
association list (the `HashMap` of the source has distinct keys; iteration
order is arbitrary and the fold below is insensitive to it for the
properties proved here). -/
abbrev RawGameMap := List (Position × RawMapObject)

/-- First-match association-list lookup, modelling `HashMap::get`. -/
def assocGet {α : Type} (l : List (Position × α)) (pos : Position) : Option α :=
  (l.find? (fun kv => kv.1 = pos)).map Prod.snd

/-- `MapLayers` from `map.rs`: derived queryable layers over the raw map.
`foregrounds`/`backgrounds` model the source `HashMap`s, `waters`/`barriers`
model the source `HashSet`s, `should_draw` the dirty list. -/
structure MapLayers where
  player : Position
  foregrounds : List (Position × ForegroundVariant)
  backgrounds : List (Position × BackgroundVariant)
  should_draw : List Position
  waters : List Position
  barriers : List Position
deriving DecidableEq, Repr

/-- `MapLayers::default()`. -/
def MapLayers.empty : MapLayers :=
  ⟨⟨0, 0⟩, [], [], [], [], []⟩

/-- `MapLayers::is_barrier` from `map.rs`: `self.barriers.contains(position)`. -/
def MapLayers.is_barrier (m : MapLayers) (position : Position) : Bool :=
  position ∈ m.barriers

/-- `MapLayers::is_water` from `map.rs`: `self.waters.contains(position)`. -/
def MapLayers.is_water (m : MapLayers) (position : Position) : Bool :=
  position ∈ m.waters

/-- `MapLayers::remove_foreground` from `map.rs`. -/
def MapLayers.remove_foreground (m : MapLayers) (position : Position) : MapLayers :=
  { m with
    foregrounds := m.foregrounds.filter (fun kv => ¬ kv.1 = position),
    should_draw := m.should_draw ++ [position] }

/-- One iteration of the loop body of `impl From<&RawGameMap> for MapLayers`
in `map.rs`: classify the entry, record barrier/water membership, insert into
the background or foreground layer, and mark the position dirty.
Insertion into a `HashMap` is modelled by consing (first-match lookup makes
the new binding shadow older ones); `HashSet::insert` by consing onto the
membership list. -/
def MapLayers.addRawEntry (m : MapLayers) (entry : Position × RawMapObject) : MapLayers :=
  let m2 :=
    match entry.2.classify with
    | .Foreground f => { m with foregrounds := (entry.1, f) :: m.foregrounds }
    | .Background b =>
      let ma := if b.is_barrier then { m with barriers := entry.1 :: m.barriers } else m
      let mb := if b.is_water then { ma with waters := entry.1 :: ma.waters } else ma
      { mb with backgrounds := (entry.1, b) :: mb.backgrounds }
  { m2 with should_draw := m2.should_draw ++ [entry.1] }

/-- `impl From<&RawGameMap> for MapLayers` from `map.rs`: fold the raw map
entries into empty layers. -/
def MapLayers.ofRaw (raw : RawGameMap) : MapLayers :=
  raw.foldl MapLayers.addRawEntry MapLayers.empty

/-- `PLAYER_INIT_OXYGEN` from `player.rs` / `main.rs`. -/
def PLAYER_INIT_OXYGEN : Int := 10

/-- `Player` from `player.rs` (superset of the `Player` in `main.rs`, which
lacks `icon` and `bag`). -/
structure Player where
  update_draw : Bool
  icon : Char
  position : Position
  bag : List Char
  oxygen : Int
  previous_position : Option Position
deriving DecidableEq, Repr

/-- `Player::default()` from `player.rs`. -/
def Player.init : Player :=
  ⟨true, '☻', ⟨0, 0⟩, [], PLAYER_INIT_OXYGEN, none⟩

/-- `Player::move_to` from `player.rs` / `main.rs`. -/
def Player.move_to (p : Player) (position : Position) : Player :=
  { p with position := position, update_draw := true }

/-- `Player::interact_background` from `player.rs`: on water, oxygen drops by
one; on any non-water tile it is reset to `PLAYER_INIT_OXYGEN`. -/
def Player.interact_background (p : Player) (map : MapLayers) : Player :=
  if map.is_water p.position then { p with oxygen := p.oxygen - 1 }
  else { p with oxygen := PLAYER_INIT_OXYGEN }

/-- Modelled from the spec: the item identity carried by pickup events and by
`PickupQuest` (`crate::utils::Item`, imported by `quest.rs`, is absent from
`src/`); per the spec an item identity is a single character ("Object(char
payload — item identity)", bag = "ordered sequence of char"). -/
abbrev Item := Char

/-- Modelled from the spec: the gameplay event stream (`crate::utils::Event`,
imported by `quest.rs`, is absent from `src/`). Per the spec (§3):
"`MoveTo(position, background-at-position)`, `Pickup(item)`, `Die(reason)`".
The payload shapes agree with how `quest.rs` destructures the type:
`Event::MoveTo(_, b)` with `b` compared against `Some(background)`, and
`Event::Pickup(item)` with `item` compared against the quest's `Item`. -/
inductive Event where
  | MoveTo (pos : Position) (background : Option BackgroundVariant)
  | Pickup (item : Item)
  | Die (reason : String)
deriving DecidableEq, Repr

/-- `QuestStatus` from `adventurers_quest/src/lib.rs`. -/
inductive QuestStatus where
  | Pending (n : Nat)
  | Completed
deriving DecidableEq, Repr

/-- `QuestProgress` from `adventurers_quest/src/lib.rs`. -/
structure QuestProgress where
  steps : Nat
  status : QuestStatus
deriving DecidableEq, Repr

/-- `QuestProgress::new` from `adventurers_quest/src/lib.rs`. -/
def QuestProgress.new (steps : Nat) : QuestProgress :=
  ⟨steps, .Pending 1⟩

/-- `QuestProgress::progress` from `adventurers_quest/src/lib.rs`. -/
def QuestProgress.progress (p : QuestProgress) : Option (Nat × Nat) :=
  match p.status with
  | .Pending n => some (n, p.steps)
  | .Completed => none

/-- `QuestProgress::next` from `adventurers_quest/src/lib.rs`: the mutation is
modelled by returning the new progress together with the source's `bool`
result. -/
def QuestProgress.next (p : QuestProgress) : QuestProgress × Bool :=
  match p.status with
  | .Pending step =>
    if step < p.steps then ({ p with status := .Pending (step + 1) }, true)
    else ({ p with status := .Completed }, true)
  | .Completed => (p, false)

/-- `QuestProgress::is_completed` from `adventurers_quest/src/lib.rs`. -/
def QuestProgress.is_completed (p : QuestProgress) : Bool :=
  p.status = QuestStatus.Completed

/-- `impl Reset for QuestProgress` from `adventurers_quest/src/lib.rs`. -/
def QuestProgress.reset (p : QuestProgress) : QuestProgress :=
  { p with status := .Pending 1 }

/-- `StepQuest` from `quest.rs`. -/
structure StepQuest where
  background : BackgroundVariant
  progress : QuestProgress
deriving DecidableEq, Repr

/-- `StepQuest::new` from `quest.rs`. -/
def StepQuest.new (background : BackgroundVariant) (steps : Nat) : StepQuest :=
  ⟨background, QuestProgress.new steps⟩

/-- `StepQuest::is_completed` from `quest.rs`. -/
def StepQuest.is_completed (q : StepQuest) : Bool :=
  q.progress.is_completed

/-- `impl Reset for StepQuest` from `quest.rs`. -/
def StepQuest.reset (q : StepQuest) : StepQuest :=
  { q with progress := q.progress.reset }

/-- `StepQuest::update` from `quest.rs`: no-op once completed; a `MoveTo`
whose background equals `Some(self.background)` advances the progress, any
other `MoveTo` resets it; non-`MoveTo` events are ignored. -/
def StepQuest.update (q : StepQuest) (event : Event) : StepQuest :=
  if q.is_completed then q
  else
    match event with
    | .MoveTo _ b =>
      if b = some q.background then { q with progress := (q.progress.next).1 }
      else { q with progress := q.progress.reset }
    | _ => q

/-- `PickupQuest` from `quest.rs`. -/
structure PickupQuest where
  item : Item
  progress : QuestProgress
deriving DecidableEq, Repr

/-- `PickupQuest::new` from `quest.rs`. -/
def PickupQuest.new (item : Item) (number : Nat) : PickupQuest :=
  ⟨item, QuestProgress.new number⟩

/-- `PickupQuest::is_completed` from `quest.rs`. -/
def PickupQuest.is_completed (q : PickupQuest) : Bool :=
  q.progress.is_completed

/-- `impl Reset for PickupQuest` from `quest.rs`. -/
def PickupQuest.reset (q : PickupQuest) : PickupQuest :=
  { q with progress := q.progress.reset }

/-- `PickupQuest::update` from `quest.rs`: no-op once completed; a `Pickup`
of the matching item advances the progress; every other event is ignored
(never a reset). -/
def PickupQuest.update (q : PickupQuest) (event : Event) : PickupQuest :=
  if q.is_completed then q
  else
    match event with
    | .Pickup item =>
      if item = q.item then { q with progress := (q.progress.next).1 } else q
    | _ => q

/-- The closed set of quest values behind `Box<dyn Quest<Event>>` in
`quest.rs`: `StepQuest`, `PickupQuest` and (recursively) `CompoundQuest`,
whose sub-quest vector is a list of such trait objects. -/
inductive GQuest where
  | step (q : StepQuest)
  | pickup (q : PickupQuest)
  | compound (subs : List GQuest) (progress : QuestProgress)

/-- `Quest::status` of each variant in `quest.rs`: every variant returns
`self.progress.status`. -/
def GQuest.statusOf : GQuest → QuestStatus
  | .step q => q.progress.status
  | .pickup q => q.progress.status
  | .compound _ progress => progress.status

/-- `Quest::is_completed` of each variant in `quest.rs`. -/
def GQuest.is_completed (q : GQuest) : Bool :=
  q.statusOf = QuestStatus.Completed

/-- `impl Reset` of each variant in `quest.rs`: every variant resets only its
own `QuestProgress` (in particular `CompoundQuest::reset` does not touch its
sub-quests). -/
def GQuest.reset : GQuest → GQuest
  | .step q => .step q.reset
  | .pickup q => .pickup q.reset
  | .compound subs progress => .compound subs progress.reset

/-- `CompoundQuest::new` from `quest.rs`: progress over `sub_quests.len()`
steps. -/
def CompoundQuest.new (subs : List GQuest) : GQuest :=
  .compound subs (QuestProgress.new subs.length)

mutual
/-- `Quest::update` of each variant in `quest.rs`. The `CompoundQuest` arm
mirrors `CompoundQuest::update`: while `progress.progress()` is
`Some((current, _))` it updates `sub_quests[current - 1]` in place and calls
`progress.next()` exactly when that sub-quest is completed afterwards; once
completed it does nothing. Rust's panicking vector index is modelled by
`Option`: `none` is the panic on an out-of-range index (shown unreachable
from `CompoundQuest::new` of a non-empty list; see the bounds invariant
below). Rust's `current - 1` on `usize` is `Nat` subtraction; `current = 0`
never occurs in reachable states. -/
def GQuest.update : GQuest → Event → Option GQuest
  | .step q, event => some (.step (q.update event))
  | .pickup q, event => some (.pickup (q.update event))
  | .compound subs progress, event =>
    match progress.progress with
    | some (current, _) =>
      (GQuest.updateList subs (current - 1) event).map
        (fun r => .compound r.1 (if r.2 then (progress.next).1 else progress))
    | none => some (.compound subs progress)

/-- Helper for the `CompoundQuest` arm of `GQuest.update`: update the element
at the given index in place (`none` models Rust's index panic) and report
whether the updated element `is_completed`. -/
def GQuest.updateList : List GQuest → Nat → Event → Option (List GQuest × Bool)
  | [], _, _ => none
  | q :: rest, 0, event => (GQuest.update q event).map (fun q2 => (q2 :: rest, q2.is_completed))
  | q :: rest, i + 1, event =>
    (GQuest.updateList rest i event).map (fun r => (q :: r.1, r.2))
end

/-- `HashMap::get` on `MapLayers::backgrounds` (used by the controller to tag
`MoveTo` events with the background at the destination). -/
def MapLayers.backgroundAt (m : MapLayers) (position : Position) : Option BackgroundVariant :=
  assocGet m.backgrounds position

/-- `HashMap::get` on `MapLayers::foregrounds`. -/
def MapLayers.foregroundAt (m : MapLayers) (position : Position) : Option ForegroundVariant :=
  assocGet m.foregrounds position

/-- The mutable game state touched by one movement/interaction step. -/
structure GameStep where
  player : Player
  map : MapLayers
deriving DecidableEq, Repr

/-- `MyGame::update_player_position` from `main.rs`, which gates the whole
step on a non-zero movement delta and a non-barrier destination, then calls
`Player::move_to` and `Player::interact_background` (from `player.rs`), and —
Modelled from the spec: the event emission and foreground pickup of the
controller iteration whose `main` is absent from `src/` (§4.2): on a
successful move emit `MoveTo(position, background_at_position)`
unconditionally; if the destination holds a foreground `Object(item)`, append
`item` to the bag, emit `Pickup(item)` and `remove_foreground` the tile; a
`Sign` only surfaces a message (no state change, no event). On the early
returns (zero delta, or barrier destination) nothing changes and no event is
emitted, exactly as in `main.rs`. -/
def update_player_position (control : Control) (s : GameStep) : GameStep × List Event :=
  let move_by := control.toPosition
  if move_by.is_origin then (s, [])
  else
    let next := s.player.position + move_by
    if s.map.is_barrier next then (s, [])
    else
      let player := (s.player.move_to next).interact_background s.map
      let moveEvent := Event.MoveTo next (s.map.backgroundAt next)
      match s.map.foregroundAt next with
      | some (.Object c) =>
        (⟨{ player with bag := player.bag ++ [c] }, s.map.remove_foreground next⟩,
          [moveEvent, Event.Pickup c])
      | _ => (⟨player, s.map⟩, [moveEvent])

/-- Run one movement/interaction step per tick for a sequence of per-tick
controls, concatenating the emitted events. -/
def runTicks (s : GameStep) : List Control → GameStep × List Event
  | [] => (s, [])
  | c :: cs =>
    let r := update_player_position c s
    let r2 := runTicks r.1 cs
    (r2.1, r.2 ++ r2.2)

/-- `VIEW_PADDING` from `main.rs`. -/
def VIEW_PADDING : Int := 2

/-- `MyGame::update_viewport_position` from `main.rs`. The screen dimensions
come from `game.screen_size() : (u16, (u16, u16))` and are cast to `i32` in
the source; they are taken here as naturals coerced to `Int`. All four
margins are computed from the incoming viewport position, then each of the
four threshold checks independently nudges a coordinate by one cell. -/
def update_viewport_position (width game_height message_height : Nat)
    (player viewport_position : Position) : Position :=
  let left := player.x - viewport_position.x
  let top := player.y - viewport_position.y
  let right := viewport_position.x + (width : Int) - 2 - player.x
  let bottom := viewport_position.y + (game_height : Int) + (message_height : Int) - 3 - player.y
  let vx := if left < VIEW_PADDING then viewport_position.x - 1 else viewport_position.x
  let vy := if top < VIEW_PADDING then viewport_position.y - 1 else viewport_position.y
  let vx2 := if right < VIEW_PADDING then vx + 1 else vx
  let vy2 := if bottom < VIEW_PADDING then vy + 1 else vy
  ⟨vx2, vy2⟩

/-- A call against the quest interface: `update(event)` or `reset()`, as the
game controller issues them. -/
inductive QuestOp where
  | upd (event : Event)
  | rst
deriving Repr

/-- Run a sequence of interface calls against a quest; `none` once any call
panics. -/
def GQuest.runOps (q : GQuest) : List QuestOp → Option GQuest
  | [] => some q
  | .upd event :: ops =>
    match q.update event with
    | some q2 => q2.runOps ops
    | none => none
  | .rst :: ops => q.reset.runOps ops

/-- Left fold of `StepQuest::update` over an event sequence, as the game
controller feeds events to the quest one at a time. -/
def stepRun (q : StepQuest) (l : List Event) : StepQuest :=
  l.foldl StepQuest.update q

/-- Left fold of `PickupQuest::update` over an event sequence. -/
def pickRun (q : PickupQuest) (l : List Event) : PickupQuest :=
  l.foldl PickupQuest.update q

/-- The test `b == &Some(self.background)` of `StepQuest::update`, as a
predicate on events: a `MoveTo` whose background is exactly the target. -/
def matchesBG (bg : BackgroundVariant) (e : Event) : Bool :=
  match e with
  | .MoveTo _ b => b = some bg
  | _ => false

/-- Whether an event is a `MoveTo`. -/
def Event.is_move : Event → Bool
  | .MoveTo _ _ => true
  | _ => false

/-- Spec-side predicate for C3 as worded: the sequence "ends with N
consecutive `MoveTo` events whose background equals the target", i.e. its
last `N` events all match. -/
def EndsWithRun (bg : BackgroundVariant) (N : Nat) (l : List Event) : Prop :=
  N ≤ l.length ∧ ∀ e ∈ l.drop (l.length - N), matchesBG bg e = true

instance (bg N l) : Decidable (EndsWithRun bg N l) := by
  unfold EndsWithRun; infer_instance

/-- Spec-side predicate: the sequence contains a contiguous block of `N`
events all matching the target background. -/
def ContainsRun (bg : BackgroundVariant) (N : Nat) (l : List Event) : Prop :=
  ∃ l1 l2 l3, l = l1 ++ l2 ++ l3 ∧ l2.length = N ∧ ∀ e ∈ l2, matchesBG bg e = true

/-- The length of the maximal all-matching suffix of an event sequence (the
current consecutive streak a pending `StepQuest` is sitting on). -/
def tStreak (bg : BackgroundVariant) (l : List Event) : Nat :=
  (l.reverse.takeWhile (matchesBG bg)).length

/-- The number of `Pickup` events of a given item in a sequence. -/
def countPickup (it : Item) (l : List Event) : Nat :=
  l.countP (fun e =>
    match e with
    | .Pickup i => i = it
    | _ => false)

/-- One axis of `update_viewport_position`: with the player at coordinate `t`
and `C` the sum of the two opposite margins (`width - 2` for x,
`game_height + message_height - 3` for y), the near margin is `t - v` and the
far margin is `v + C - t`; each margin strictly below `VIEW_PADDING` nudges
the coordinate by one cell. -/
def nudge (t C v : Int) : Int :=
  let a := if t - v < VIEW_PADDING then v - 1 else v
  if v + C - t < VIEW_PADDING then a + 1 else a

/-- The bounds invariant of a compound quest: the quest is a `compound` node
whose progress counts one step per sub-quest and whose pending step index
always lies in `[1, len]`. -/
def CInv (len : Nat) (q : GQuest) : Prop :=
  ∃ subs p, q = GQuest.compound subs p ∧ p.steps = len ∧ subs.length = len ∧
    ∀ n, p.status = QuestStatus.Pending n → 1 ≤ n ∧ n ≤ len

/-- The step-index invariant of a leaf quest's progress: a pending step index
lies in `[1, steps]`. -/
def PInv (p : QuestProgress) : Prop :=
  ∀ n, p.status = QuestStatus.Pending n → 1 ≤ n ∧ n ≤ p.steps

/-! ### Map-layer construction lemmas -/

theorem mem_barriers_addRawEntry (m : MapLayers) (p : Position) (o : RawMapObject)
    (pos : Position) :
    pos ∈ (m.addRawEntry (p, o)).barriers ↔
      pos ∈ m.barriers ∨ (pos = p ∧ o = RawMapObject.Barrier) := by
  cases o <;>
    simp [MapLayers.addRawEntry, RawMapObject.classify, BackgroundVariant.is_barrier,
      BackgroundVariant.is_water, List.mem_cons]; tauto

theorem mem_waters_addRawEntry (m : MapLayers) (p : Position) (o : RawMapObject)
    (pos : Position) :
    pos ∈ (m.addRawEntry (p, o)).waters ↔
      pos ∈ m.waters ∨ (pos = p ∧ o = RawMapObject.Water) := by
  cases o <;>
    simp [MapLayers.addRawEntry, RawMapObject.classify, BackgroundVariant.is_barrier,
      BackgroundVariant.is_water, List.mem_cons]; tauto

theorem mem_barriers_foldRaw (raw : List (Position × RawMapObject)) :
    ∀ (m : MapLayers) (pos : Position),
      pos ∈ (raw.foldl MapLayers.addRawEntry m).barriers ↔
        pos ∈ m.barriers ∨ (pos, RawMapObject.Barrier) ∈ raw := by
  induction raw with
  | nil => simp
  | cons hd tl ih =>
    intro m pos
    obtain ⟨p, o⟩ := hd
    rw [List.foldl_cons, ih, mem_barriers_addRawEntry]
    simp only [List.mem_cons, Prod.mk.injEq]
    constructor
    · rintro (((h | ⟨rfl, rfl⟩) | h)) <;> tauto
    · rintro (h | (⟨rfl, rfl⟩ | h)) <;> tauto

theorem mem_waters_foldRaw (raw : List (Position × RawMapObject)) :
    ∀ (m : MapLayers) (pos : Position),
      pos ∈ (raw.foldl MapLayers.addRawEntry m).waters ↔
        pos ∈ m.waters ∨ (pos, RawMapObject.Water) ∈ raw := by
  induction raw with
  | nil => simp
  | cons hd tl ih =>
    intro m pos
    obtain ⟨p, o⟩ := hd
    rw [List.foldl_cons, ih, mem_waters_addRawEntry]
    simp only [List.mem_cons, Prod.mk.injEq]
    constructor
    · rintro (((h | ⟨rfl, rfl⟩) | h)) <;> tauto
    · rintro (h | (⟨rfl, rfl⟩ | h)) <;> tauto

/-- C8. For every `MapLayers` built by `impl From<&RawGameMap> for MapLayers`
and every position: `is_barrier` holds exactly for the positions the raw map
assigns `Barrier`, `is_water` exactly for the positions it assigns `Water`,
and a position not listed in the raw map is neither a barrier nor water. -/
theorem maplayers_barrier_water_iff (raw : RawGameMap) (pos : Position) :
    ((MapLayers.ofRaw raw).is_barrier pos = true ↔ (pos, RawMapObject.Barrier) ∈ raw)
    ∧ ((MapLayers.ofRaw raw).is_water pos = true ↔ (pos, RawMapObject.Water) ∈ raw)
    ∧ ((∀ o, (pos, o) ∉ raw) →
      (MapLayers.ofRaw raw).is_barrier pos = false ∧ (MapLayers.ofRaw raw).is_water pos = false) := by
  have hb : (MapLayers.ofRaw raw).is_barrier pos = true ↔ (pos, RawMapObject.Barrier) ∈ raw := by
    rw [MapLayers.is_barrier, decide_eq_true_eq, MapLayers.ofRaw, mem_barriers_foldRaw]
    simp [MapLayers.empty]
  have hw : (MapLayers.ofRaw raw).is_water pos = true ↔ (pos, RawMapObject.Water) ∈ raw := by
    rw [MapLayers.is_water, decide_eq_true_eq, MapLayers.ofRaw, mem_waters_foldRaw]
    simp [MapLayers.empty]
  refine ⟨hb, hw, fun h => ⟨?_, ?_⟩⟩
  · rw [Bool.eq_false_iff]
    intro hc
    exact h RawMapObject.Barrier (hb.mp hc)
  · rw [Bool.eq_false_iff]
    intro hc
    exact h RawMapObject.Water (hw.mp hc)

/-- Witness for C8 at a concrete three-tile raw map and the unlisted
position `(5, 5)`. -/
theorem maplayers_barrier_water_iff_witness :
    ((MapLayers.ofRaw [(⟨0, 0⟩, RawMapObject.Barrier), (⟨1, 0⟩, RawMapObject.Water),
        (⟨2, 0⟩, RawMapObject.Object 'x')]).is_barrier ⟨5, 5⟩ = true ↔
      ((⟨5, 5⟩ : Position), RawMapObject.Barrier) ∈
        [((⟨0, 0⟩ : Position), RawMapObject.Barrier), (⟨1, 0⟩, RawMapObject.Water),
          (⟨2, 0⟩, RawMapObject.Object 'x')])
    ∧ ((MapLayers.ofRaw [(⟨0, 0⟩, RawMapObject.Barrier), (⟨1, 0⟩, RawMapObject.Water),
        (⟨2, 0⟩, RawMapObject.Object 'x')]).is_water ⟨5, 5⟩ = true ↔
      ((⟨5, 5⟩ : Position), RawMapObject.Water) ∈
        [((⟨0, 0⟩ : Position), RawMapObject.Barrier), (⟨1, 0⟩, RawMapObject.Water),
          (⟨2, 0⟩, RawMapObject.Object 'x')])
    ∧ ((∀ o, ((⟨5, 5⟩ : Position), o) ∉
        [((⟨0, 0⟩ : Position), RawMapObject.Barrier), (⟨1, 0⟩, RawMapObject.Water),
          (⟨2, 0⟩, RawMapObject.Object 'x')]) →
      (MapLayers.ofRaw [(⟨0, 0⟩, RawMapObject.Barrier), (⟨1, 0⟩, RawMapObject.Water),
        (⟨2, 0⟩, RawMapObject.Object 'x')]).is_barrier ⟨5, 5⟩ = false ∧
      (MapLayers.ofRaw [(⟨0, 0⟩, RawMapObject.Barrier), (⟨1, 0⟩, RawMapObject.Water),
        (⟨2, 0⟩, RawMapObject.Object 'x')]).is_water ⟨5, 5⟩ = false) :=
  maplayers_barrier_water_iff
    [(⟨0, 0⟩, RawMapObject.Barrier), (⟨1, 0⟩, RawMapObject.Water),
      (⟨2, 0⟩, RawMapObject.Object 'x')] ⟨5, 5⟩

/-! ### Movement / oxygen lemmas -/

theorem update_player_position_origin (c : Control) (s : GameStep)
    (h : (c.toPosition).is_origin = true) :
    update_player_position c s = (s, []) := by
  unfold update_player_position
  simp [h]

theorem update_player_position_barrier (c : Control) (s : GameStep)
    (h : s.map.is_barrier (s.player.position + c.toPosition) = true) :
    update_player_position c s = (s, []) := by
  unfold update_player_position
  by_cases horig : (c.toPosition).is_origin
  · simp [horig]
  · simp [horig, h]

/-- C2. If the candidate position (current position plus the tick's movement
delta) is a barrier, the movement step changes nothing — player position,
`previous_position`, oxygen, bag and the map are all unchanged — and no event
is emitted; and this stays true over any sequence of such repeated attempts. -/
theorem barrier_rejection_no_change (s : GameStep) (cs : List Control)
    (h : ∀ c ∈ cs, s.map.is_barrier (s.player.position + c.toPosition) = true) :
    runTicks s cs = (s, []) := by
  induction cs with
  | nil => rfl
  | cons c cs ih =>
    have hstep : update_player_position c s = (s, []) :=
      update_player_position_barrier c s (h c (List.mem_cons_self c cs))
    have hrest : runTicks s cs = (s, []) := ih (fun d hd => h d (List.mem_cons_of_mem c hd))
    simp [runTicks, hstep, hrest]

/-- Witness for C2: five consecutive attempts to step right into the barrier
at `(1, 0)` leave the freshly initialised player untouched and emit nothing. -/
theorem barrier_rejection_no_change_witness :
    (∀ c ∈ [({ up := false, down := false, left := false, right := true } : Control),
        { up := false, down := false, left := false, right := true },
        { up := false, down := false, left := false, right := true },
        { up := false, down := false, left := false, right := true },
        { up := false, down := false, left := false, right := true }],
      (MapLayers.ofRaw [(⟨1, 0⟩, RawMapObject.Barrier)]).is_barrier
        (Player.init.position + c.toPosition) = true)
    ∧ runTicks ⟨Player.init, MapLayers.ofRaw [(⟨1, 0⟩, RawMapObject.Barrier)]⟩
        [{ up := false, down := false, left := false, right := true },
          { up := false, down := false, left := false, right := true },
          { up := false, down := false, left := false, right := true },
          { up := false, down := false, left := false, right := true },
          { up := false, down := false, left := false, right := true }] =
      (⟨Player.init, MapLayers.ofRaw [(⟨1, 0⟩, RawMapObject.Barrier)]⟩, []) :=
  ⟨by decide,
    barrier_rejection_no_change
      ⟨Player.init, MapLayers.ofRaw [(⟨1, 0⟩, RawMapObject.Barrier)]⟩ _ (by decide)⟩

/-- C1 (counterexample). On a tick with no directional input the movement step
returns early, so a player standing on a water tile keeps oxygen 5 instead of
dropping to 4: oxygen does not decrease "regardless of whether the player
moved that tick". -/
theorem oxygen_idle_water_tick_counterexample :
    (MapLayers.ofRaw [(⟨0, 0⟩, RawMapObject.Water)]).is_water
        ({ Player.init with oxygen := 5 } : Player).position = true
    ∧ ((update_player_position ⟨false, false, false, false⟩
        ⟨{ Player.init with oxygen := 5 }, MapLayers.ofRaw [(⟨0, 0⟩, RawMapObject.Water)]⟩).1).player.oxygen
      = 5 := by
  decide

/-- C1 (amended). Per-tick oxygen rule of the movement step: on a tick with a
zero movement delta, or one whose candidate position is a barrier, oxygen is
unchanged; on a successful move it decreases by exactly 1 when the destination
is water and resets to exactly 10 (`PLAYER_INIT_OXYGEN`) when it is not —
independent of the length of any preceding water streak, since the rule only
reads the current oxygen and the destination tile. -/
theorem oxygen_update_characterization (c : Control) (s : GameStep) :
    ((update_player_position c s).1).player.oxygen =
      if (c.toPosition).is_origin then s.player.oxygen
      else if s.map.is_barrier (s.player.position + c.toPosition) then s.player.oxygen
      else if s.map.is_water (s.player.position + c.toPosition) then s.player.oxygen - 1
      else PLAYER_INIT_OXYGEN := by
  unfold update_player_position
  by_cases horig : (c.toPosition).is_origin
  · simp [horig]
  · by_cases hbar : s.map.is_barrier (s.player.position + c.toPosition)
    · simp [horig, hbar]
    · simp only [horig, hbar, Bool.false_eq_true, if_false, if_true, Bool.not_eq_true]
      unfold Player.interact_background Player.move_to
      by_cases hw : s.map.is_water (s.player.position + c.toPosition) <;>
        cases hfg : s.map.foregroundAt (s.player.position + c.toPosition) with
        | none => simp [horig, hbar, hfg, hw]
        | some f => cases f <;> simp [horig, hbar, hfg, hw]

/-! ### Quest basics: completed is terminal, reset -/

/-- C6. Once a quest's status is `Completed`, `update` is a no-op for every
event and every variant (`StepQuest`, `PickupQuest`, `CompoundQuest`): the
quest value — status and all internal progress — is returned unchanged, so
`Completed` never reverts to `Pending` except via an explicit `reset()`. -/
theorem completed_update_noop (q : GQuest) (e : Event)
    (h : q.statusOf = QuestStatus.Completed) :
    q.update e = some q := by
  cases q with
  | step s =>
    simp only [GQuest.statusOf] at h
    simp [GQuest.update, StepQuest.update, StepQuest.is_completed, QuestProgress.is_completed, h]
  | pickup p =>
    simp only [GQuest.statusOf] at h
    simp [GQuest.update, PickupQuest.update, PickupQuest.is_completed,
      QuestProgress.is_completed, h]
  | compound subs p =>
    simp only [GQuest.statusOf] at h
    simp [GQuest.update, QuestProgress.progress, h]

/-- Witness for C6: a completed one-step water quest ignores a further
matching `MoveTo`. -/
theorem completed_update_noop_witness :
    GQuest.update (GQuest.step ⟨BackgroundVariant.Water, ⟨1, QuestStatus.Completed⟩⟩)
        (Event.MoveTo ⟨0, 0⟩ (some BackgroundVariant.Water)) =
      some (GQuest.step ⟨BackgroundVariant.Water, ⟨1, QuestStatus.Completed⟩⟩) :=
  completed_update_noop (GQuest.step ⟨BackgroundVariant.Water, ⟨1, QuestStatus.Completed⟩⟩)
    (Event.MoveTo ⟨0, 0⟩ (some BackgroundVariant.Water)) rfl

/-- C5 (counterexample). After a `CompoundQuest` completes and is `reset()`,
its sub-quests keep their progress (here: the single sub-quest stays
completed), so the next event of any kind re-completes it — whereas the same
event on a freshly constructed quest with the same parameters leaves it
pending. `reset()` therefore does not make subsequent updates behave as on a
fresh quest. -/
theorem compound_reset_not_fresh_counterexample :
    ((CompoundQuest.new [GQuest.step (StepQuest.new BackgroundVariant.Water 1)]).runOps
        [QuestOp.upd (Event.MoveTo ⟨0, 0⟩ (some BackgroundVariant.Water)), QuestOp.rst,
          QuestOp.upd (Event.Pickup 'x')]).map GQuest.statusOf = some QuestStatus.Completed
    ∧ ((CompoundQuest.new [GQuest.step (StepQuest.new BackgroundVariant.Water 1)]).runOps
        [QuestOp.upd (Event.Pickup 'x')]).map GQuest.statusOf = some (QuestStatus.Pending 1) :=
  ⟨rfl, rfl⟩

/-- C5 (amended). `reset()` sets the quest's own status to `Pending(1)`
unconditionally for every variant; for `StepQuest` and `PickupQuest` the
resulting value equals a freshly constructed quest with the same parameters
(so subsequent updates behave identically), while `CompoundQuest::reset`
resets only its own progress and leaves the sub-quests' progress in place. -/
theorem reset_forces_pending_one (q : GQuest) (s : StepQuest) (pq : PickupQuest)
    (subs : List GQuest) (p : QuestProgress) :
    (q.reset).statusOf = QuestStatus.Pending 1
    ∧ s.reset = StepQuest.new s.background s.progress.steps
    ∧ pq.reset = PickupQuest.new pq.item pq.progress.steps
    ∧ (GQuest.compound subs p).reset = GQuest.compound subs p.reset := by
  refine ⟨?_, rfl, rfl, rfl⟩
  cases q <;> rfl

/-! ### PickupQuest characterization -/

theorem QuestProgress.next_steps (p : QuestProgress) : ((p.next).1).steps = p.steps := by
  rcases p with ⟨steps, st⟩
  cases st with
  | Pending n =>
    simp only [QuestProgress.next]
    split <;> rfl
  | Completed => rfl

theorem pickup_update_of_completed (q : PickupQuest) (e : Event)
    (h : q.progress.status = QuestStatus.Completed) : q.update e = q := by
  simp [PickupQuest.update, PickupQuest.is_completed, QuestProgress.is_completed, h]

theorem pickRun_of_completed (q : PickupQuest) (l : List Event)
    (h : q.progress.status = QuestStatus.Completed) : pickRun q l = q := by
  induction l with
  | nil => rfl
  | cons e l ih =>
    show pickRun (q.update e) l = q
    rw [pickup_update_of_completed q e h, ih]

theorem pickRun_status_aux (l : List Event) :
    ∀ (q : PickupQuest) (c : Nat), q.progress.status = QuestStatus.Pending c →
      1 ≤ c → c ≤ q.progress.steps →
      (pickRun q l).progress.status =
        if c + countPickup q.item l ≤ q.progress.steps then
          QuestStatus.Pending (c + countPickup q.item l)
        else QuestStatus.Completed := by
  induction l with
  | nil =>
    intro q c hst h1 hle
    simp only [pickRun, List.foldl_nil, countPickup, List.countP_nil, Nat.add_zero]
    rw [hst, if_pos hle]
  | cons e l ih =>
    intro q c hst h1 hle
    have hnc : q.is_completed = false := by
      simp [PickupQuest.is_completed, QuestProgress.is_completed, hst]
    show (pickRun (q.update e) l).progress.status = _
    cases e with
    | Pickup i =>
      by_cases hi : i = q.item
      · have hupd : q.update (Event.Pickup i) = { q with progress := (q.progress.next).1 } := by
          simp [PickupQuest.update, hnc, hi]
        rw [hupd]
        by_cases hc : c < q.progress.steps
        · have hnext : (q.progress.next).1 =
              { q.progress with status := QuestStatus.Pending (c + 1) } := by
            simp [QuestProgress.next, hst, hc]
          rw [hnext]
          have := ih { q with progress := { q.progress with status := QuestStatus.Pending (c + 1) } }
            (c + 1) rfl (by omega) (by simpa using hc)
          simp only at this
          rw [this]
          have hcount : countPickup q.item (Event.Pickup i :: l) = countPickup q.item l + 1 := by
            simp [countPickup, List.countP_cons, hi]
          rw [hcount]
          have harith : c + 1 + countPickup q.item l = c + (countPickup q.item l + 1) := by omega
          rw [harith]
        · have hceq : c = q.progress.steps := by omega
          have hnext : (q.progress.next).1 =
              { q.progress with status := QuestStatus.Completed } := by
            simp [QuestProgress.next, hst, hc]
          rw [hnext]
          rw [pickRun_of_completed _ _ rfl]
          have hcount : countPickup q.item (Event.Pickup i :: l) = countPickup q.item l + 1 := by
            simp [countPickup, List.countP_cons, hi]
          rw [hcount, if_neg (by omega)]
      · have hupd : q.update (Event.Pickup i) = q := by
          simp [PickupQuest.update, hnc, hi]
        rw [hupd]
        have hcount : countPickup q.item (Event.Pickup i :: l) = countPickup q.item l := by
          simp [countPickup, List.countP_cons, hi]
        rw [hcount]
        exact ih q c hst h1 hle
    | MoveTo pz b =>
      have hupd : q.update (Event.MoveTo pz b) = q := by simp [PickupQuest.update, hnc]
      rw [hupd]
      have hcount : countPickup q.item (Event.MoveTo pz b :: l) = countPickup q.item l := by
        simp [countPickup, List.countP_cons]
      rw [hcount]
      exact ih q c hst h1 hle
    | Die r =>
      have hupd : q.update (Event.Die r) = q := by simp [PickupQuest.update, hnc]
      rw [hupd]
      have hcount : countPickup q.item (Event.Die r :: l) = countPickup q.item l := by
        simp [countPickup, List.countP_cons]
      rw [hcount]
      exact ih q c hst h1 hle

/-- C9. A `PickupQuest(item, N)` with `N ≥ 1` run over any event sequence is
pending at step `count + 1` while fewer than `N` matching pickups have
occurred and completed as soon as `N` have — i.e. it completes exactly after
the `N`-th matching `Pickup`, regardless of interleaved unrelated events;
moreover a `Pickup` of a different item, a `MoveTo` and a `Die` each leave
any `PickupQuest` completely unchanged (no advance, no reset). -/
theorem pickupquest_count_characterization (it : Item) (n : Nat) (hn : 1 ≤ n)
    (l : List Event) (q : PickupQuest) (i : Item) (hi : ¬ i = q.item)
    (pz : Position) (b : Option BackgroundVariant) (r : String) :
    ((pickRun (PickupQuest.new it n) l).progress.status =
      if countPickup it l < n then QuestStatus.Pending (countPickup it l + 1)
      else QuestStatus.Completed)
    ∧ q.update (Event.Pickup i) = q
    ∧ q.update (Event.MoveTo pz b) = q
    ∧ q.update (Event.Die r) = q := by
  refine ⟨?_, ?_, ?_, ?_⟩
  · have h := pickRun_status_aux l (PickupQuest.new it n) 1 rfl (le_refl 1) hn
    rw [h]
    show (if 1 + countPickup it l ≤ n then QuestStatus.Pending (1 + countPickup it l)
      else QuestStatus.Completed) = _
    have harith : 1 + countPickup it l = countPickup it l + 1 := by omega
    rw [harith]
    by_cases hc : countPickup it l < n
    · rw [if_pos (by omega), if_pos hc]
    · rw [if_neg (by omega), if_neg hc]
  · by_cases h : q.is_completed <;> simp [PickupQuest.update, h, hi]
  · by_cases h : q.is_completed <;> simp [PickupQuest.update, h]
  · by_cases h : q.is_completed <;> simp [PickupQuest.update, h]

/-- Witness for C9: `PickupQuest('x', 2)` over
`[Pickup('x'), MoveTo, Pickup('y'), Pickup('x')]` — two matching pickups with
unrelated events interleaved — evaluates to `Completed`, and the one-step
no-op conclusions at a concrete pending quest. -/
theorem pickupquest_count_characterization_witness :
    ((pickRun (PickupQuest.new 'x' 2)
        [Event.Pickup 'x', Event.MoveTo ⟨0, 0⟩ none, Event.Pickup 'y',
          Event.Pickup 'x']).progress.status =
      if countPickup 'x' [Event.Pickup 'x', Event.MoveTo ⟨0, 0⟩ none, Event.Pickup 'y',
          Event.Pickup 'x'] < 2 then
        QuestStatus.Pending (countPickup 'x' [Event.Pickup 'x', Event.MoveTo ⟨0, 0⟩ none,
          Event.Pickup 'y', Event.Pickup 'x'] + 1)
      else QuestStatus.Completed)
    ∧ (PickupQuest.new 'x' 3).update (Event.Pickup 'y') = PickupQuest.new 'x' 3
    ∧ (PickupQuest.new 'x' 3).update (Event.MoveTo ⟨0, 0⟩ (some BackgroundVariant.Water)) =
      PickupQuest.new 'x' 3
    ∧ (PickupQuest.new 'x' 3).update (Event.Die "drown") = PickupQuest.new 'x' 3 :=
  pickupquest_count_characterization 'x' 2 (by decide)
    [Event.Pickup 'x', Event.MoveTo ⟨0, 0⟩ none, Event.Pickup 'y', Event.Pickup 'x']
    (PickupQuest.new 'x' 3) 'y' (by decide) ⟨0, 0⟩ (some BackgroundVariant.Water) "drown"

/-! ### CompoundQuest delegation and bounds invariant -/

theorem updateList_eq (e : Event) (subs : List GQuest) :
    ∀ (i : Nat),
      GQuest.updateList subs i e =
        subs[i]?.bind (fun sub =>
          (sub.update e).map (fun sub2 => (subs.set i sub2, sub2.is_completed))) := by
  induction subs with
  | nil => intro i; cases i <;> rfl
  | cons q rest ih =>
    intro i
    cases i with
    | zero =>
      cases h : q.update e <;> simp [GQuest.updateList, h]
    | succ i =>
      rw [show GQuest.updateList (q :: rest) (i + 1) e =
        (GQuest.updateList rest i e).map (fun r => (q :: r.1, r.2)) from rfl]
      rw [ih i, List.getElem?_cons_succ]
      cases hg : rest[i]? with
      | none => simp
      | some sub => cases hu : sub.update e <;> simp [hu]

theorem compound_update_pending (subs : List GQuest) (p : QuestProgress) (n : Nat)
    (e : Event) (hst : p.status = QuestStatus.Pending n) :
    (GQuest.compound subs p).update e =
      (subs[n - 1]?.bind (fun sub =>
        (sub.update e).map (fun sub2 => (subs.set (n - 1) sub2, sub2.is_completed)))).map
        (fun r => GQuest.compound r.1 (if r.2 then (p.next).1 else p)) := by
  have hpr : p.progress = some (n, p.steps) := by simp [QuestProgress.progress, hst]
  simp [GQuest.update, hpr, updateList_eq]

/-- C4. A `CompoundQuest` delegates each event only to the currently active
sub-quest (index `current - 1`): the update replaces exactly that entry by its
updated value, advances its own progress precisely when the updated sub-quest
reports completed, and every other entry — in particular every sub-quest
after the active one — is untouched. Concretely, for
`CompoundQuest([StepQuest(Water, 1), PickupQuest('x', 1)])` a `Pickup('x')`
before any water visit changes nothing, while `MoveTo(Water)` followed by
`Pickup('x')` completes the compound quest. -/
theorem compoundquest_delegates_to_active (subs : List GQuest) (p : QuestProgress)
    (n : Nat) (sub sub2 : GQuest) (e : Event) (j : Nat)
    (hst : p.status = QuestStatus.Pending n) (hget : subs[n - 1]? = some sub)
    (hupd : sub.update e = some sub2) (hj : ¬ j = n - 1) :
    (GQuest.compound subs p).update e =
      some (GQuest.compound (subs.set (n - 1) sub2)
        (if sub2.is_completed then (p.next).1 else p))
    ∧ (subs.set (n - 1) sub2)[j]? = subs[j]?
    ∧ (CompoundQuest.new [GQuest.step (StepQuest.new BackgroundVariant.Water 1),
        GQuest.pickup (PickupQuest.new 'x' 1)]).update (Event.Pickup 'x') =
      some (CompoundQuest.new [GQuest.step (StepQuest.new BackgroundVariant.Water 1),
        GQuest.pickup (PickupQuest.new 'x' 1)])
    ∧ ((CompoundQuest.new [GQuest.step (StepQuest.new BackgroundVariant.Water 1),
        GQuest.pickup (PickupQuest.new 'x' 1)]).runOps
          [QuestOp.upd (Event.MoveTo ⟨0, 0⟩ (some BackgroundVariant.Water)),
            QuestOp.upd (Event.Pickup 'x')]).map GQuest.statusOf =
      some QuestStatus.Completed := by
  refine ⟨?_, ?_, rfl, rfl⟩
  · rw [compound_update_pending subs p n e hst, hget]
    simp [hupd]
  · exact List.getElem?_set_ne (fun hc => hj hc.symm)

/-- Witness for C4 at a concrete two-quest compound with a non-completing
update of the active sub-quest. -/
theorem compoundquest_delegates_to_active_witness :
    (GQuest.compound [GQuest.step (StepQuest.new BackgroundVariant.Water 3),
        GQuest.pickup (PickupQuest.new 'x' 1)] ⟨2, QuestStatus.Pending 1⟩).update
          (Event.MoveTo ⟨0, 0⟩ (some BackgroundVariant.Water)) =
      some (GQuest.compound
        ([GQuest.step (StepQuest.new BackgroundVariant.Water 3),
          GQuest.pickup (PickupQuest.new 'x' 1)].set 0
            (GQuest.step ⟨BackgroundVariant.Water, ⟨3, QuestStatus.Pending 2⟩⟩))
        (if (GQuest.step ⟨BackgroundVariant.Water,
            ⟨3, QuestStatus.Pending 2⟩⟩ : GQuest).is_completed then
          ((⟨2, QuestStatus.Pending 1⟩ : QuestProgress).next).1
        else ⟨2, QuestStatus.Pending 1⟩))
    ∧ ([GQuest.step (StepQuest.new BackgroundVariant.Water 3),
        GQuest.pickup (PickupQuest.new 'x' 1)].set 0
          (GQuest.step ⟨BackgroundVariant.Water, ⟨3, QuestStatus.Pending 2⟩⟩))[1]? =
      [GQuest.step (StepQuest.new BackgroundVariant.Water 3),
        GQuest.pickup (PickupQuest.new 'x' 1)][1]?
    ∧ (CompoundQuest.new [GQuest.step (StepQuest.new BackgroundVariant.Water 1),
        GQuest.pickup (PickupQuest.new 'x' 1)]).update (Event.Pickup 'x') =
      some (CompoundQuest.new [GQuest.step (StepQuest.new BackgroundVariant.Water 1),
        GQuest.pickup (PickupQuest.new 'x' 1)])
    ∧ ((CompoundQuest.new [GQuest.step (StepQuest.new BackgroundVariant.Water 1),
        GQuest.pickup (PickupQuest.new 'x' 1)]).runOps
          [QuestOp.upd (Event.MoveTo ⟨0, 0⟩ (some BackgroundVariant.Water)),
            QuestOp.upd (Event.Pickup 'x')]).map GQuest.statusOf =
      some QuestStatus.Completed :=
  compoundquest_delegates_to_active
    [GQuest.step (StepQuest.new BackgroundVariant.Water 3),
      GQuest.pickup (PickupQuest.new 'x' 1)] ⟨2, QuestStatus.Pending 1⟩ 1
    (GQuest.step (StepQuest.new BackgroundVariant.Water 3))
    (GQuest.step ⟨BackgroundVariant.Water, ⟨3, QuestStatus.Pending 2⟩⟩)
    (Event.MoveTo ⟨0, 0⟩ (some BackgroundVariant.Water)) 1 rfl rfl rfl (by decide)

theorem CInv_new (subs : List GQuest) (h : subs ≠ []) :
    CInv subs.length (CompoundQuest.new subs) := by
  refine ⟨subs, QuestProgress.new subs.length, rfl, rfl, rfl, ?_⟩
  intro n hn
  simp only [QuestProgress.new] at hn
  cases hn
  exact ⟨le_refl 1, List.length_pos.mpr h⟩

theorem CInv_update (len : Nat) (q q2 : GQuest) (e : Event) (h : CInv len q)
    (hu : q.update e = some q2) : CInv len q2 := by
  obtain ⟨subs, p, rfl, hsteps, hlen, hbnd⟩ := h
  cases hst : p.status with
  | Completed =>
    have hpr : p.progress = none := by simp [QuestProgress.progress, hst]
    simp only [GQuest.update, hpr, Option.some.injEq] at hu
    exact ⟨subs, p, hu.symm, hsteps, hlen, hbnd⟩
  | Pending n =>
    rw [compound_update_pending subs p n e hst] at hu
    cases hget : subs[n - 1]? with
    | none => rw [hget] at hu; simp at hu
    | some sub =>
      rw [hget, Option.some_bind] at hu
      cases hsub : sub.update e with
      | none => rw [hsub] at hu; simp at hu
      | some sub2 =>
        rw [hsub] at hu
        simp only [Option.map_some', Option.some.injEq] at hu
        obtain ⟨hb1, hb2⟩ := hbnd n hst
        refine ⟨subs.set (n - 1) sub2, _, hu.symm, ?_, ?_, ?_⟩
        · by_cases hc : sub2.is_completed <;>
            simp [hc, QuestProgress.next, hst, hsteps]
          split <;> rfl
        · simp [hlen]
        · intro m hm
          by_cases hc : sub2.is_completed
          · simp only [hc, if_true, QuestProgress.next, hst] at hm
            by_cases hlt : n < p.steps
            · rw [if_pos hlt] at hm
              simp at hm
              omega
            · rw [if_neg hlt] at hm
              simp at hm
          · simp only [hc, Bool.false_eq_true, if_false] at hm
            rw [hm] at hst
            cases hst
            exact ⟨hb1, hb2⟩

theorem CInv_reset (len : Nat) (q : GQuest) (h : CInv len q) (h1 : 1 ≤ len) :
    CInv len q.reset := by
  obtain ⟨subs, p, rfl, hsteps, hlen, hbnd⟩ := h
  refine ⟨subs, p.reset, rfl, hsteps, hlen, ?_⟩
  intro n hn
  simp only [QuestProgress.reset] at hn
  cases hn
  exact ⟨le_refl 1, h1⟩

theorem CInv_runOps (len : Nat) (h1 : 1 ≤ len) (ops : List QuestOp) :
    ∀ (q q2 : GQuest), CInv len q → q.runOps ops = some q2 → CInv len q2 := by
  induction ops with
  | nil =>
    intro q q2 h hr
    simp only [GQuest.runOps, Option.some.injEq] at hr
    exact hr ▸ h
  | cons op ops ih =>
    intro q q2 h hr
    cases op with
    | upd e =>
      simp only [GQuest.runOps] at hr
      cases hu : q.update e with
      | none => rw [hu] at hr; simp at hr
      | some q3 =>
        rw [hu] at hr
        exact ih q3 q2 (CInv_update len q q3 e h hu) hr
    | rst =>
      simp only [GQuest.runOps] at hr
      exact ih q.reset q2 (CInv_reset len q h h1) hr

/-- C10. For a `CompoundQuest` built from a non-empty sub-quest list, in every
state reachable by any sequence of `update`/`reset` calls, a pending progress
`Pending(n)` satisfies `1 ≤ n ≤ number of sub-quests`, so the vector index
`n - 1` used by `CompoundQuest::update` (and the progress display) is always
in bounds; a completed compound quest is never indexed since `update` returns
before indexing when `progress()` is `None`. -/
theorem compound_pending_index_in_bounds (subs : List GQuest) (ops : List QuestOp)
    (q2 : GQuest) (subs2 : List GQuest) (p : QuestProgress) (n : Nat)
    (hne : subs ≠ []) (hrun : (CompoundQuest.new subs).runOps ops = some q2)
    (hq : q2 = GQuest.compound subs2 p) (hn : p.status = QuestStatus.Pending n) :
    1 ≤ n ∧ n ≤ subs2.length ∧ n - 1 < subs2.length := by
  have hlen1 : 1 ≤ subs.length := List.length_pos.mpr hne
  have hc := CInv_runOps subs.length hlen1 ops _ q2 (CInv_new subs hne) hrun
  obtain ⟨s3, p3, heq, hsteps, hlen, hbnd⟩ := hc
  rw [hq] at heq
  injection heq with h1 h2
  subst h1
  subst h2
  obtain ⟨hb1, hb2⟩ := hbnd n hn
  omega

/-- Witness for C10: one matching `MoveTo` against a two-step compound quest
leaves it at `Pending(1)` over one sub-quest, within bounds. -/
theorem compound_pending_index_in_bounds_witness :
    1 ≤ 1 ∧ 1 ≤ ([GQuest.step ⟨BackgroundVariant.Water, ⟨2, QuestStatus.Pending 2⟩⟩] :
      List GQuest).length ∧ 1 - 1 < ([GQuest.step ⟨BackgroundVariant.Water,
      ⟨2, QuestStatus.Pending 2⟩⟩] : List GQuest).length :=
  compound_pending_index_in_bounds [GQuest.step (StepQuest.new BackgroundVariant.Water 2)]
    [QuestOp.upd (Event.MoveTo ⟨0, 0⟩ (some BackgroundVariant.Water))]
    (GQuest.compound [GQuest.step ⟨BackgroundVariant.Water, ⟨2, QuestStatus.Pending 2⟩⟩]
      ⟨1, QuestStatus.Pending 1⟩)
    [GQuest.step ⟨BackgroundVariant.Water, ⟨2, QuestStatus.Pending 2⟩⟩]
    ⟨1, QuestStatus.Pending 1⟩ 1 (List.cons_ne_nil _ _) rfl rfl rfl

/-! ### StepQuest run characterization -/

theorem step_update_of_completed (q : StepQuest) (e : Event)
    (h : q.progress.status = QuestStatus.Completed) : q.update e = q := by
  simp [StepQuest.update, StepQuest.is_completed, QuestProgress.is_completed, h]

theorem StepQuest.update_background (q : StepQuest) (e : Event) :
    (q.update e).background = q.background := by
  by_cases h : q.is_completed
  · simp [StepQuest.update, h]
  · cases e with
    | MoveTo p b =>
      simp only [StepQuest.update, h, Bool.false_eq_true, if_false]
      split <;> rfl
    | Pickup i => simp [StepQuest.update, h]
    | Die r => simp [StepQuest.update, h]

theorem StepQuest.update_steps (q : StepQuest) (e : Event) :
    (q.update e).progress.steps = q.progress.steps := by
  by_cases h : q.is_completed
  · simp [StepQuest.update, h]
  · cases e with
    | MoveTo p b =>
      simp only [StepQuest.update, h, Bool.false_eq_true, if_false]
      split
      · exact QuestProgress.next_steps q.progress
      · rfl
    | Pickup i => simp [StepQuest.update, h]
    | Die r => simp [StepQuest.update, h]

theorem stepRun_of_completed (q : StepQuest) (l : List Event)
    (h : q.progress.status = QuestStatus.Completed) : stepRun q l = q := by
  induction l with
  | nil => rfl
  | cons e l ih =>
    show stepRun (q.update e) l = q
    rw [step_update_of_completed q e h, ih]

theorem stepRun_append (q : StepQuest) (l1 l2 : List Event) :
    stepRun q (l1 ++ l2) = stepRun (stepRun q l1) l2 :=
  List.foldl_append StepQuest.update q l1 l2

theorem stepRun_background (l : List Event) :
    ∀ q : StepQuest, (stepRun q l).background = q.background := by
  induction l with
  | nil => intro q; rfl
  | cons e l ih =>
    intro q
    show (stepRun (q.update e) l).background = q.background
    rw [ih, StepQuest.update_background]

theorem stepRun_steps (l : List Event) :
    ∀ q : StepQuest, (stepRun q l).progress.steps = q.progress.steps := by
  induction l with
  | nil => intro q; rfl
  | cons e l ih =>
    intro q
    show (stepRun (q.update e) l).progress.steps = q.progress.steps
    rw [ih, StepQuest.update_steps]

theorem StepQuest.update_PInv (q : StepQuest) (e : Event)
    (hs : 1 ≤ q.progress.steps) (h : PInv q.progress) : PInv (q.update e).progress := by
  by_cases hc : q.is_completed
  · simpa [StepQuest.update, hc] using h
  · cases e with
    | MoveTo p b =>
      simp only [StepQuest.update, hc, Bool.false_eq_true, if_false]
      split
      · intro n hn
        rw [QuestProgress.next_steps]
        cases hst : q.progress.status with
        | Completed =>
          simp [QuestProgress.next, hst] at hn
        | Pending m =>
          obtain ⟨hm1, hm2⟩ := h m hst
          simp only [QuestProgress.next, hst] at hn
          by_cases hlt : m < q.progress.steps
          · rw [if_pos hlt] at hn
            simp at hn
            omega
          · rw [if_neg hlt] at hn
            simp at hn
      · intro n hn
        simp only [QuestProgress.reset] at hn
        cases hn
        exact ⟨le_refl 1, hs⟩
    | Pickup i => simpa [StepQuest.update, hc] using h
    | Die r => simpa [StepQuest.update, hc] using h

theorem stepRun_PInv (l : List Event) :
    ∀ q : StepQuest, 1 ≤ q.progress.steps → PInv q.progress →
      PInv (stepRun q l).progress := by
  induction l with
  | nil => intro q _ h; exact h
  | cons e l ih =>
    intro q hs h
    show PInv (stepRun (q.update e) l).progress
    exact ih (q.update e) (by rw [StepQuest.update_steps]; exact hs)
      (StepQuest.update_PInv q e hs h)

theorem stepRun_matched_complete (l2 : List Event) :
    ∀ (q : StepQuest) (k : Nat),
      (∀ e ∈ l2, matchesBG q.background e = true) →
      q.progress.status = QuestStatus.Pending k → 1 ≤ k → k ≤ q.progress.steps →
      q.progress.steps + 1 ≤ k + l2.length →
      (stepRun q l2).progress.status = QuestStatus.Completed := by
  induction l2 with
  | nil =>
    intro q k hall hst h1 hle hlen
    exfalso
    simp at hlen
    omega
  | cons e l2 ih =>
    intro q k hall hst h1 hle hlen
    have hm : matchesBG q.background e = true := hall e (List.mem_cons_self e l2)
    cases e with
    | Pickup i => simp [matchesBG] at hm
    | Die r => simp [matchesBG] at hm
    | MoveTo p b =>
      have hb : b = some q.background := by simpa [matchesBG] using hm
      have hnc : q.is_completed = false := by
        simp [StepQuest.is_completed, QuestProgress.is_completed, hst]
      have hupd : q.update (Event.MoveTo p b) = { q with progress := (q.progress.next).1 } := by
        simp [StepQuest.update, hnc, hb]
      show (stepRun (q.update (Event.MoveTo p b)) l2).progress.status = _
      rw [hupd]
      by_cases hk : k < q.progress.steps
      · have hnext : (q.progress.next).1 =
            { q.progress with status := QuestStatus.Pending (k + 1) } := by
          simp [QuestProgress.next, hst, hk]
        rw [hnext]
        refine ih _ (k + 1) ?_ rfl (by omega) (by simpa using hk) ?_
        · intro e2 he2
          exact hall e2 (List.mem_cons_of_mem _ he2)
        · simp only [List.length_cons] at hlen
          simpa using by omega
      · have hnext : (q.progress.next).1 =
            { q.progress with status := QuestStatus.Completed } := by
          simp [QuestProgress.next, hst, hk]
        rw [hnext, stepRun_of_completed
          { q with progress := { q.progress with status := QuestStatus.Completed } } l2 rfl]

theorem contains_run_completed (bg : BackgroundVariant) (N : Nat) (hN : 1 ≤ N)
    (l : List Event) (h : ContainsRun bg N l) :
    (stepRun (StepQuest.new bg N) l).progress.status = QuestStatus.Completed := by
  obtain ⟨l1, l2, l3, rfl, hlen, hall⟩ := h
  rw [stepRun_append, stepRun_append]
  have hbg : (stepRun (StepQuest.new bg N) l1).background = bg := stepRun_background l1 _
  have hsteps : (stepRun (StepQuest.new bg N) l1).progress.steps = N := stepRun_steps l1 _
  have hinv : PInv (stepRun (StepQuest.new bg N) l1).progress := by
    refine stepRun_PInv l1 _ hN ?_
    intro n hn
    simp only [StepQuest.new, QuestProgress.new] at hn
    cases hn
    exact ⟨le_refl 1, hN⟩
  cases hst : (stepRun (StepQuest.new bg N) l1).progress.status with
  | Completed =>
    rw [stepRun_of_completed _ l2 hst, stepRun_of_completed _ l3 hst]
    exact hst
  | Pending k =>
    obtain ⟨h1, h2⟩ := hinv k hst
    have hcomp : (stepRun (stepRun (StepQuest.new bg N) l1) l2).progress.status =
        QuestStatus.Completed := by
      refine stepRun_matched_complete l2 _ k ?_ hst h1 h2 ?_
      · rw [hbg]; exact hall
      · rw [hsteps, hlen]; omega
    rw [stepRun_of_completed _ l3 hcomp]
    exact hcomp

theorem ContainsRun.append_right (bg : BackgroundVariant) (N : Nat) (l : List Event)
    (e : Event) (h : ContainsRun bg N l) : ContainsRun bg N (l ++ [e]) := by
  obtain ⟨l1, l2, l3, rfl, hlen, hall⟩ := h
  exact ⟨l1, l2, l3 ++ [e], by simp, hlen, hall⟩

theorem tStreak_append_match (bg : BackgroundVariant) (l : List Event) (e : Event)
    (h : matchesBG bg e = true) : tStreak bg (l ++ [e]) = tStreak bg l + 1 := by
  simp [tStreak, List.reverse_append, List.takeWhile_cons, h]

theorem tStreak_append_mismatch (bg : BackgroundVariant) (l : List Event) (e : Event)
    (h : matchesBG bg e = false) : tStreak bg (l ++ [e]) = 0 := by
  simp [tStreak, List.reverse_append, List.takeWhile_cons, h]

theorem tStreak_suffix (bg : BackgroundVariant) (l : List Event) :
    ∃ l0, l = l0 ++ (l.reverse.takeWhile (matchesBG bg)).reverse
      ∧ ∀ e ∈ (l.reverse.takeWhile (matchesBG bg)).reverse, matchesBG bg e = true := by
  refine ⟨(l.reverse.dropWhile (matchesBG bg)).reverse, ?_, ?_⟩
  · conv_lhs => rw [← l.reverse_reverse, ← List.takeWhile_append_dropWhile (matchesBG bg) l.reverse]
    rw [List.reverse_append]
  · intro e he
    rw [List.mem_reverse] at he
    exact List.mem_takeWhile_imp he

theorem noRun_pending (bg : BackgroundVariant) (N : Nat) (hN : 1 ≤ N) (l : List Event)
    (hM : ∀ e ∈ l, e.is_move = true) (hno : ¬ ContainsRun bg N l) :
    (stepRun (StepQuest.new bg N) l).progress.status =
      QuestStatus.Pending (tStreak bg l + 1)
    ∧ tStreak bg l + 1 ≤ N := by
  induction l using List.reverseRecOn with
  | nil => exact ⟨rfl, hN⟩
  | append_singleton l e ih =>
    have hM2 : ∀ x ∈ l, x.is_move = true := fun x hx => hM x (by simp [hx])
    have hMe : e.is_move = true := hM e (by simp)
    have hno2 : ¬ ContainsRun bg N l := fun hc => hno (ContainsRun.append_right bg N l e hc)
    obtain ⟨ihst, ihle⟩ := ih hM2 hno2
    rw [stepRun_append]
    cases e with
    | Pickup i => simp [Event.is_move] at hMe
    | Die r => simp [Event.is_move] at hMe
    | MoveTo p b =>
      have hbg : (stepRun (StepQuest.new bg N) l).background = bg := stepRun_background l _
      have hsteps : (stepRun (StepQuest.new bg N) l).progress.steps = N := stepRun_steps l _
      have hnc : (stepRun (StepQuest.new bg N) l).is_completed = false := by
        simp [StepQuest.is_completed, QuestProgress.is_completed, ihst]
      by_cases hm : matchesBG bg (Event.MoveTo p b) = true
      · have hb : b = some bg := by simpa [matchesBG] using hm
        have hlt : tStreak bg l + 1 < N := by
          rcases Nat.lt_or_ge (tStreak bg l + 1) N with hcase | hcase
          · exact hcase
          · exfalso
            have heq : tStreak bg l + 1 = N := by omega
            obtain ⟨l0, hl0, hallsuf⟩ := tStreak_suffix bg l
            apply hno
            refine ⟨l0, (l.reverse.takeWhile (matchesBG bg)).reverse ++ [Event.MoveTo p b],
              [], ?_, ?_, ?_⟩
            · rw [List.append_nil, ← List.append_assoc, ← hl0]
            · simp only [List.length_append, List.length_reverse, List.length_cons,
                List.length_nil]
              simp only [tStreak] at heq
              omega
            · intro x hx
              rcases List.mem_append.mp hx with hx | hx
              · exact hallsuf x hx
              · simp only [List.mem_singleton] at hx
                rw [hx]
                exact hm
        have hupd : (stepRun (StepQuest.new bg N) l).update (Event.MoveTo p b) =
            { stepRun (StepQuest.new bg N) l with
              progress := ((stepRun (StepQuest.new bg N) l).progress.next).1 } := by
          simp [StepQuest.update, hnc, hbg, hb]
        have hnext : (((stepRun (StepQuest.new bg N) l).progress.next).1).status =
            QuestStatus.Pending (tStreak bg l + 2) := by
          simp [QuestProgress.next, ihst, hsteps, hlt]
        constructor
        · show ((stepRun (StepQuest.new bg N) l).update (Event.MoveTo p b)).progress.status = _
          rw [hupd]
          rw [tStreak_append_match bg l _ hm]
          exact hnext
        · rw [tStreak_append_match bg l _ hm]
          omega
      · have hmf : matchesBG bg (Event.MoveTo p b) = false := by
          simpa using hm
        have hb : ¬ b = some bg := by simpa [matchesBG] using hmf
        have hupd : (stepRun (StepQuest.new bg N) l).update (Event.MoveTo p b) =
            { stepRun (StepQuest.new bg N) l with
              progress := (stepRun (StepQuest.new bg N) l).progress.reset } := by
          simp [StepQuest.update, hnc, hbg, hb]
        constructor
        · show ((stepRun (StepQuest.new bg N) l).update (Event.MoveTo p b)).progress.status = _
          rw [hupd, tStreak_append_mismatch bg l _ hmf]
          rfl
        · rw [tStreak_append_mismatch bg l _ hmf]
          omega

/-- C3 (counterexample). `StepQuest(Water, 3)` over the all-`MoveTo` sequence
Water, Water, Water, Sand is completed (the quest completes after the third
water visit and ignores the later Sand), yet the sequence does not end with 3
consecutive matching `MoveTo` events — so "completes exactly when it ends
with N consecutive matching events" is false as an equivalence. -/
theorem stepquest_ends_with_counterexample :
    (stepRun (StepQuest.new BackgroundVariant.Water 3)
      [Event.MoveTo ⟨0, 0⟩ (some BackgroundVariant.Water),
        Event.MoveTo ⟨0, 0⟩ (some BackgroundVariant.Water),
        Event.MoveTo ⟨0, 0⟩ (some BackgroundVariant.Water),
        Event.MoveTo ⟨0, 0⟩ (some BackgroundVariant.Sand)]).is_completed = true
    ∧ (∀ e ∈ [Event.MoveTo ⟨0, 0⟩ (some BackgroundVariant.Water),
        Event.MoveTo ⟨0, 0⟩ (some BackgroundVariant.Water),
        Event.MoveTo ⟨0, 0⟩ (some BackgroundVariant.Water),
        Event.MoveTo ⟨0, 0⟩ (some BackgroundVariant.Sand)], e.is_move = true)
    ∧ ¬ EndsWithRun BackgroundVariant.Water 3
        [Event.MoveTo ⟨0, 0⟩ (some BackgroundVariant.Water),
          Event.MoveTo ⟨0, 0⟩ (some BackgroundVariant.Water),
          Event.MoveTo ⟨0, 0⟩ (some BackgroundVariant.Water),
          Event.MoveTo ⟨0, 0⟩ (some BackgroundVariant.Sand)] := by
  decide

/-- C3 (amended). For `StepQuest(background, N)` with `N ≥ 1` and any sequence
of `MoveTo` events: the quest (run from its initial state) is completed
exactly when the sequence contains `N` consecutive `MoveTo` events whose
background equals the target (equivalently, some prefix ends with such a
block); and any `MoveTo` with a different background resets a pending quest's
progress to step 1, so non-consecutive matching visits do not accumulate. -/
theorem stepquest_completes_iff_contains_run (bg : BackgroundVariant) (N : Nat)
    (hN : 1 ≤ N) (l : List Event) (hM : ∀ e ∈ l, e.is_move = true)
    (q : StepQuest) (hq : q.is_completed = false) (p : Position)
    (b : Option BackgroundVariant) (hb : ¬ b = some q.background) :
    ((stepRun (StepQuest.new bg N) l).is_completed = true ↔ ContainsRun bg N l)
    ∧ (q.update (Event.MoveTo p b)).progress.status = QuestStatus.Pending 1 := by
  constructor
  · constructor
    · intro hc
      by_contra hno
      obtain ⟨hst, _⟩ := noRun_pending bg N hN l hM hno
      rw [StepQuest.is_completed, QuestProgress.is_completed, hst] at hc
      simp at hc
    · intro h
      have hcomp := contains_run_completed bg N hN l h
      simp [StepQuest.is_completed, QuestProgress.is_completed, hcomp]
  · simp [StepQuest.update, hq, hb, QuestProgress.reset]

/-- Witness for C3: `StepQuest(Water, 2)` over Sand, Water, Water — which
contains two consecutive water visits — and a one-step reset at a concrete
pending quest. -/
theorem stepquest_completes_iff_contains_run_witness :
    ((stepRun (StepQuest.new BackgroundVariant.Water 2)
        [Event.MoveTo ⟨0, 0⟩ (some BackgroundVariant.Sand),
          Event.MoveTo ⟨0, 0⟩ (some BackgroundVariant.Water),
          Event.MoveTo ⟨0, 0⟩ (some BackgroundVariant.Water)]).is_completed = true ↔
      ContainsRun BackgroundVariant.Water 2
        [Event.MoveTo ⟨0, 0⟩ (some BackgroundVariant.Sand),
          Event.MoveTo ⟨0, 0⟩ (some BackgroundVariant.Water),
          Event.MoveTo ⟨0, 0⟩ (some BackgroundVariant.Water)])
    ∧ ((StepQuest.new BackgroundVariant.Water 2).update
        (Event.MoveTo ⟨0, 0⟩ (some BackgroundVariant.Sand))).progress.status =
      QuestStatus.Pending 1 :=
  stepquest_completes_iff_contains_run BackgroundVariant.Water 2 (by decide)
    [Event.MoveTo ⟨0, 0⟩ (some BackgroundVariant.Sand),
      Event.MoveTo ⟨0, 0⟩ (some BackgroundVariant.Water),
      Event.MoveTo ⟨0, 0⟩ (some BackgroundVariant.Water)] (by decide)
    (StepQuest.new BackgroundVariant.Water 2) rfl ⟨0, 0⟩
    (some BackgroundVariant.Sand) (by decide)

/-! ### Viewport follow -/

theorem update_viewport_eq_nudge (w gh mh : Nat) (pl vp : Position) :
    update_viewport_position w gh mh pl vp =
      ⟨nudge pl.x ((w : Int) - 2) vp.x, nudge pl.y ((gh : Int) + (mh : Int) - 3) vp.y⟩ := by
  simp only [update_viewport_position, nudge, VIEW_PADDING]
  have hx : vp.x + (w : Int) - 2 - pl.x = vp.x + ((w : Int) - 2) - pl.x := by ring
  have hy : vp.y + (gh : Int) + (mh : Int) - 3 - pl.y =
      vp.y + ((gh : Int) + (mh : Int) - 3) - pl.y := by ring
  rw [hx, hy]

theorem nudge_characterization (t C v : Int) :
    nudge t C v = v - (if t - v < 2 then 1 else 0) + (if v + C - t < 2 then 1 else 0) := by
  simp only [nudge, VIEW_PADDING]
  split_ifs <;> ring

theorem nudge_fixed (t C v : Int) (h1 : 2 ≤ t - v) (h2 : 2 ≤ v + C - t) :
    nudge t C v = v := by
  simp only [nudge, VIEW_PADDING]
  split_ifs <;> omega

theorem nudge_left (t C v : Int) (hC : 4 ≤ C) (h : t - v < 2) : nudge t C v = v - 1 := by
  simp only [nudge, VIEW_PADDING]
  split_ifs <;> omega

theorem nudge_right (t C v : Int) (hC : 4 ≤ C) (h : v + C - t < 2) : nudge t C v = v + 1 := by
  simp only [nudge, VIEW_PADDING]
  split_ifs <;> omega

theorem nudge_iter_left (t C : Int) (hC : 4 ≤ C) :
    ∀ (n : Nat) (v : Int), t - v = 2 - (n : Int) → (nudge t C)^[n] v = v - n := by
  intro n
  induction n with
  | zero => intro v h; simp
  | succ n ih =>
    intro v h
    have hstep : nudge t C v = v - 1 := nudge_left t C v hC (by omega)
    rw [Function.iterate_succ_apply, hstep, ih (v - 1) (by push_cast at h ⊢; omega)]
    push_cast
    ring

theorem nudge_iter_right (t C : Int) (hC : 4 ≤ C) :
    ∀ (n : Nat) (v : Int), v + C - t = 2 - (n : Int) → (nudge t C)^[n] v = v + n := by
  intro n
  induction n with
  | zero => intro v h; simp
  | succ n ih =>
    intro v h
    have hstep : nudge t C v = v + 1 := nudge_right t C v hC (by omega)
    rw [Function.iterate_succ_apply, hstep, ih (v + 1) (by push_cast at h ⊢; omega)]
    push_cast
    ring

theorem nudge_converge (t C : Int) (hC : 4 ≤ C) (v : Int) :
    ∃ k, (∀ m, k ≤ m → (nudge t C)^[m] v = (nudge t C)^[k] v)
      ∧ 2 ≤ t - (nudge t C)^[k] v ∧ 2 ≤ (nudge t C)^[k] v + C - t := by
  by_cases h1 : 2 ≤ t - v
  · by_cases h2 : 2 ≤ v + C - t
    · refine ⟨0, fun m hm => ?_, by simpa using h1, by simpa using h2⟩
      simp [Function.iterate_fixed (nudge_fixed t C v h1 h2) m]
    · push_neg at h2
      have hcast : ((2 - (v + C - t)).toNat : Int) = 2 - (v + C - t) :=
        Int.toNat_of_nonneg (by omega)
      have hiter := nudge_iter_right t C hC (2 - (v + C - t)).toNat v (by omega)
      have hfar : (nudge t C)^[(2 - (v + C - t)).toNat] v + C - t = 2 := by
        rw [hiter]; omega
      have hnear : 2 ≤ t - (nudge t C)^[(2 - (v + C - t)).toNat] v := by
        rw [hiter]; omega
      refine ⟨(2 - (v + C - t)).toNat, fun m hm => ?_, hnear, by omega⟩
      have hm2 : m = (m - (2 - (v + C - t)).toNat) + (2 - (v + C - t)).toNat := by omega
      rw [hm2, Function.iterate_add_apply]
      exact Function.iterate_fixed
        (nudge_fixed t C _ hnear (by omega)) (m - (2 - (v + C - t)).toNat)
  · push_neg at h1
    have hcast : ((2 - (t - v)).toNat : Int) = 2 - (t - v) :=
      Int.toNat_of_nonneg (by omega)
    have hiter := nudge_iter_left t C hC (2 - (t - v)).toNat v (by omega)
    have hnear : t - (nudge t C)^[(2 - (t - v)).toNat] v = 2 := by
      rw [hiter]; omega
    have hfar : 2 ≤ (nudge t C)^[(2 - (t - v)).toNat] v + C - t := by
      rw [hiter]; omega
    refine ⟨(2 - (t - v)).toNat, fun m hm => ?_, by omega, hfar⟩
    have hm2 : m = (m - (2 - (t - v)).toNat) + (2 - (t - v)).toNat := by omega
    rw [hm2, Function.iterate_add_apply]
    exact Function.iterate_fixed
      (nudge_fixed t C _ (by omega) hfar) (m - (2 - (t - v)).toNat)

theorem viewport_iter_eq (w gh mh : Nat) (pl vp : Position) :
    ∀ k, (fun q => update_viewport_position w gh mh pl q)^[k] vp =
      ⟨(nudge pl.x ((w : Int) - 2))^[k] vp.x,
        (nudge pl.y ((gh : Int) + (mh : Int) - 3))^[k] vp.y⟩ := by
  intro k
  induction k with
  | zero => rfl
  | succ k ih =>
    rw [Function.iterate_succ_apply', ih, update_viewport_eq_nudge,
      Function.iterate_succ_apply', Function.iterate_succ_apply']

/-- C7 (counterexample). On a 4-wide screen with `game_height + message_height
= 5`, player `(1, 1)` and viewport `(0, 0)`, all four margins
(`left = top = right = bottom = 1`) are strictly below the padding threshold
2, yet the tick leaves the viewport exactly where it was (each axis is nudged
one cell in both directions, net zero) — the viewport coordinate is not moved
one cell toward the player, and repeated ticks can never make the margins
reach the threshold. -/
theorem viewport_small_screen_counterexample :
    update_viewport_position 4 3 2 ⟨1, 1⟩ ⟨0, 0⟩ = ⟨0, 0⟩
    ∧ ((1 : Int) - 0 < 2) ∧ ((0 : Int) + 4 - 2 - 1 < 2)
    ∧ ((1 : Int) - 0 < 2) ∧ ((0 : Int) + 3 + 2 - 3 - 1 < 2) := by
  refine ⟨?_, by omega, by omega, by omega, by omega⟩
  decide

/-- C7 (amended). Per tick, `update_viewport_position` computes the four
margins from the incoming viewport position and applies the independent
threshold checks, so each viewport coordinate changes by
`- [near margin < 2] + [far margin < 2]` exactly (one cell toward the player
per deficient margin; the two nudges of one axis cancel when both opposite
margins are deficient, which requires a screen smaller than the thresholds
allow). Provided the screen is large enough that opposite margins cannot both
be below the threshold (`width ≥ 6` and `game_height + message_height ≥ 7`),
repeated ticks move the viewport one cell per deficient axis per tick and
reach, without overshooting, a state where all four margins are at least the
threshold and the viewport no longer moves. -/
theorem viewport_margin_step_and_convergence (w gh mh : Nat) (pl vp : Position)
    (hw : 6 ≤ w) (hh : 7 ≤ gh + mh) :
    (update_viewport_position w gh mh pl vp =
      ⟨vp.x - (if pl.x - vp.x < 2 then 1 else 0)
          + (if vp.x + (w : Int) - 2 - pl.x < 2 then 1 else 0),
        vp.y - (if pl.y - vp.y < 2 then 1 else 0)
          + (if vp.y + (gh : Int) + (mh : Int) - 3 - pl.y < 2 then 1 else 0)⟩)
    ∧ ∃ k, (∀ m, k ≤ m →
        (fun q => update_viewport_position w gh mh pl q)^[m] vp =
          (fun q => update_viewport_position w gh mh pl q)^[k] vp)
      ∧ 2 ≤ pl.x - ((fun q => update_viewport_position w gh mh pl q)^[k] vp).x
      ∧ 2 ≤ ((fun q => update_viewport_position w gh mh pl q)^[k] vp).x
          + (w : Int) - 2 - pl.x
      ∧ 2 ≤ pl.y - ((fun q => update_viewport_position w gh mh pl q)^[k] vp).y
      ∧ 2 ≤ ((fun q => update_viewport_position w gh mh pl q)^[k] vp).y
          + (gh : Int) + (mh : Int) - 3 - pl.y := by
  have hCx : (4 : Int) ≤ (w : Int) - 2 := by omega
  have hCy : (4 : Int) ≤ (gh : Int) + (mh : Int) - 3 := by omega
  constructor
  · rw [update_viewport_eq_nudge, nudge_characterization, nudge_characterization]
    have hgx : vp.x + ((w : Int) - 2) - pl.x = vp.x + (w : Int) - 2 - pl.x := by ring
    have hgy : vp.y + ((gh : Int) + (mh : Int) - 3) - pl.y =
        vp.y + (gh : Int) + (mh : Int) - 3 - pl.y := by ring
    rw [hgx, hgy]
  · obtain ⟨kx, hxs, hx1, hx2⟩ := nudge_converge pl.x ((w : Int) - 2) hCx vp.x
    obtain ⟨ky, hys, hy1, hy2⟩ := nudge_converge pl.y ((gh : Int) + (mh : Int) - 3) hCy vp.y
    refine ⟨max kx ky, ?_, ?_, ?_, ?_, ?_⟩
    · intro m hm
      rw [viewport_iter_eq, viewport_iter_eq]
      rw [hxs m (le_trans (le_max_left kx ky) hm), hxs (max kx ky) (le_max_left kx ky),
        hys m (le_trans (le_max_right kx ky) hm), hys (max kx ky) (le_max_right kx ky)]
    · rw [viewport_iter_eq]
      have := hxs (max kx ky) (le_max_left kx ky)
      simp only [this]
      exact hx1
    · rw [viewport_iter_eq]
      have := hxs (max kx ky) (le_max_left kx ky)
      simp only [this]
      omega
    · rw [viewport_iter_eq]
      have := hys (max kx ky) (le_max_right kx ky)
      simp only [this]
      exact hy1
    · rw [viewport_iter_eq]
      have := hys (max kx ky) (le_max_right kx ky)
      simp only [this]
      omega

/-- Witness for C7 on a 10-wide screen with heights 10 + 3, player at the
origin and viewport at `(5, 5)`. -/
theorem viewport_margin_step_and_convergence_witness :
    (update_viewport_position 10 10 3 ⟨0, 0⟩ ⟨5, 5⟩ =
      ⟨(5 : Int) - (if (0 : Int) - (5 : Int) < 2 then 1 else 0)
          + (if (5 : Int) + ((10 : Nat) : Int) - 2 - (0 : Int) < 2 then 1 else 0),
        (5 : Int) - (if (0 : Int) - (5 : Int) < 2 then 1 else 0)
          + (if (5 : Int) + ((10 : Nat) : Int) + ((3 : Nat) : Int) - 3 - (0 : Int) < 2 then 1
            else 0)⟩)
    ∧ ∃ k, (∀ m, k ≤ m →
        (fun q => update_viewport_position 10 10 3 ⟨0, 0⟩ q)^[m] ⟨5, 5⟩ =
          (fun q => update_viewport_position 10 10 3 ⟨0, 0⟩ q)^[k] ⟨5, 5⟩)
      ∧ 2 ≤ (0 : Int) - ((fun q => update_viewport_position 10 10 3 ⟨0, 0⟩ q)^[k] ⟨5, 5⟩).x
      ∧ 2 ≤ ((fun q => update_viewport_position 10 10 3 ⟨0, 0⟩ q)^[k] ⟨5, 5⟩).x
          + ((10 : Nat) : Int) - 2 - (0 : Int)
      ∧ 2 ≤ (0 : Int) - ((fun q => update_viewport_position 10 10 3 ⟨0, 0⟩ q)^[k] ⟨5, 5⟩).y
      ∧ 2 ≤ ((fun q => update_viewport_position 10 10 3 ⟨0, 0⟩ q)^[k] ⟨5, 5⟩).y
          + ((10 : Nat) : Int) + ((3 : Nat) : Int) - 3 - (0 : Int) :=
  viewport_margin_step_and_convergence 10 10 3 ⟨0, 0⟩ ⟨5, 5⟩ (by decide) (by decide)

end Adventurers
